import Mathlib

/-!
Shallow embedding of `docs/github_readme.py`: a lazy streaming pipeline
that assembles `README.rst` from an ordered list of documentation
fragments.  Generators over text chunks are modelled as `List Line`
(with `Line` a list of characters); the one generator whose suspension
timing matters (`read_file`, which can raise on `open`) is modelled as
an explicit event trace.  Line numbers in doc comments refer to
`docs/github_readme.py`.
-/

/-- One Python string chunk yielded by a generator.  In the happy path a
chunk is one text line with its terminator, but some yielded chunks hold
more than one line (for example the `'\n\n'` separator). -/
abbrev Line := List Char

/-- `FILE_HEADER = '.. Source defined in %s\n\n'` (line 25). -/
def FILE_HEADER : Line := ".. Source defined in %s\n\n".toList

/-- `FILE_HEADER % p` (lines 63 and 69): the header chunk for provenance
path `p`.  The template holds a single `%s` placeholder, so Python
`%`-formatting is plain substitution. -/
def fmtHeader (p : Line) : Line :=
  ".. Source defined in ".toList ++ p ++ "\n\n".toList

/-- `FILE_HEADER[:-5]` (line 112) — the prefix used by
`rule__code_blocks` to recognize the first chunk of a new fragment. -/
def header_marker : Line := FILE_HEADER.take (FILE_HEADER.length - 5)

/-- The override directive prefix `'.. highlight:: '` (line 116). -/
def hl_marker : Line := ".. highlight:: ".toList

/-- The shorthand terminator `'::\n'` (line 113). -/
def shorthand_term : Line := "::\n".toList

/-- The directive-comment prefix `'..'` (line 113). -/
def dotdot : Line := "..".toList

/-- The skip directive prefix `':orphan:'` (line 139). -/
def orphan_marker : Line := ":orphan:".toList

/-- The default code-block language `'python'` (lines 108 and 122). -/
def default_language : Line := "python".toList

/-- The separator chunk `'\n\n'` yielded by `concatenate` (line 76). -/
def separator : Line := "\n\n".toList

/-- `'\n.. code-block:: %s\n' % lang` (line 127). -/
def code_block_directive (lang : Line) : Line :=
  "\n.. code-block:: ".toList ++ lang ++ "\n".toList

/-- Python `line.strip()` (line 113): remove leading and trailing
whitespace.  Python strips every Unicode whitespace character; the lines
handled by this script carry only ASCII whitespace, on which
`Char.isWhitespace` agrees. -/
def pyStrip (l : Line) : Line :=
  ((l.dropWhile Char.isWhitespace).reverse.dropWhile Char.isWhitespace).reverse

/-- Helper for Python `str.split()`/`str.rsplit()` with no separator
argument: split on runs of whitespace, producing no empty tokens.  `acc`
holds the reversed token currently being scanned. -/
def tokensAux (acc : List Char) : List Char → List Line
  | [] => if acc.isEmpty then [] else [acc.reverse]
  | c :: rest =>
    if c.isWhitespace then
      if acc.isEmpty then tokensAux [] rest
      else acc.reverse :: tokensAux [] rest
    else tokensAux (c :: acc) rest

/-- Python `line.split()`: the whitespace-delimited tokens of `line`. -/
def pyTokens (l : Line) : List Line := tokensAux [] l

/-- The second component of `line.rsplit(maxsplit=1)`, that is the last
whitespace-delimited token of the line.  Line 117 destructures
`_, code_block_language = line.rsplit(maxsplit=1)`; every line reaching
it starts with `'.. highlight:: '` and hence has at least two tokens, so
the destructuring succeeds and binds the last token (and the `[]`
default of `getLastD` is never taken). -/
def rsplit1_snd (l : Line) : Line := (pyTokens l).getLastD []

/-- Python `line.replace('::\n', '\n')` (line 126): replace every
occurrence of `'::\n'` (leftmost first, non-overlapping) by `'\n'`. -/
def replace_shorthand : Line → Line
  | ':' :: ':' :: '\n' :: rest => '\n' :: replace_shorthand rest
  | c :: rest => c :: replace_shorthand rest
  | [] => []

/-- Helper for Python `text.splitlines(keepends=True)` (line 70): `acc`
holds the reversed characters of the line being scanned.  Python also
splits on a few rare control characters (`\v`, `\f`, ...); the texts this
script splits contain only `\n`, and `\r`/`\r\n` are covered as well. -/
def splitlinesAux (acc : List Char) : List Char → List Line
  | [] => if acc.isEmpty then [] else [acc.reverse]
  | '\r' :: '\n' :: rest => (acc.reverse ++ ['\r', '\n']) :: splitlinesAux [] rest
  | '\r' :: rest => (acc.reverse ++ ['\r']) :: splitlinesAux [] rest
  | '\n' :: rest => (acc.reverse ++ ['\n']) :: splitlinesAux [] rest
  | c :: rest => splitlinesAux (c :: acc) rest

/-- Python `text.splitlines(True)` (line 70). -/
def splitlinesTrue (text : List Char) : List Line := splitlinesAux [] text

/-- The error raised by `open` on a missing file (Python
`FileNotFoundError`; the spec calls it `NotFoundError`). -/
inductive Err
  | NotFoundError
  deriving DecidableEq

/-- One observable event of the `read_file` generator: a yield (one pull
of the stream completes), the `open` call, or a raised error. -/
inductive Ev
  | yields (l : Line)
  | openFile (name : Line)
  | raises (e : Err)
  deriving DecidableEq

/-- Event trace of `read_file(file_name)` (lines 62-65) run against file
system `fs`, an association list from file name to that file's chunks as
Python file iteration yields them (each with its terminator, except
possibly the last).  `relpath` stands for the external
`os.path.relpath(·, PROJECT())` collaborator.  `read_file` is a
generator, so its body runs only as the consumer pulls: it yields the
header chunk first, and only then executes `open(file_name)`, which
raises if the file is missing and otherwise yields each of its lines. -/
def read_file (fs : List (Line × List Line)) (relpath : Line → Line)
    (file_name : Line) : List Ev :=
  Ev.yields (fmtHeader (relpath file_name)) ::
    Ev.openFile file_name ::
      match fs.lookup file_name with
      | some lines => lines.map Ev.yields
      | none => [Ev.raises Err.NotFoundError]

instance : DecidableEq (Except Err Line) := fun
  | .ok a, .ok b =>
    if h : a = b then .isTrue (by rw [h]) else .isFalse (by simp [h])
  | .ok _, .error _ => .isFalse (by simp)
  | .error _, .ok _ => .isFalse (by simp)
  | .error a, .error b => .isTrue (by cases a; cases b; rfl)

/-- The pulls a consumer sees when draining an event trace: a `yields`
completes one pull successfully, `openFile` is internal and consumes no
pull, and `raises` surfaces as an exception on the pull in progress,
ending the stream. -/
def pulls : List Ev → List (Except Err Line)
  | [] => []
  | Ev.yields l :: rest => Except.ok l :: pulls rest
  | Ev.openFile _ :: rest => pulls rest
  | Ev.raises e :: _ => [Except.error e]

/-- `relpath(__file__, PROJECT())` (line 69): the script's own path
relative to the project root; the script lives at
`docs/github_readme.py` and `PROJECT()` is the repository root. -/
def script_relpath : Line := "docs/github_readme.py".toList

/-- `read_text(text)` (lines 68-70): the header chunk built from the
script's own relative path, then `text.splitlines(True)`.  No file I/O
can fail here, so the generator is modelled directly as the list of
chunks it yields. -/
def read_text (text : List Char) : List Line :=
  fmtHeader script_relpath :: splitlinesTrue text

/-- `concatenate(sources)` (lines 73-76): yield every chunk of each
source in order, following each source — including the last — with one
`'\n\n'` separator chunk. -/
def concatenate : List (List Line) → List Line
  | [] => []
  | source :: sources => source ++ separator :: concatenate sources

/-- The loop of `rule__code_blocks` (lines 110-130) with the mutable
`code_block_language` made an explicit parameter.  Per line: classify
(`is_new_file`, `is_code_block_shorthand`), then consume an override
line (setting the language to its last token), else reset the language
on a fragment header, then either expand a shorthand line into two
chunks or pass the line through. -/
def code_blocks_loop (code_block_language : Line) : List Line → List Line
  | [] => []
  | line :: lines =>
    let is_new_file := header_marker.isPrefixOf line
    let is_code_block_shorthand :=
      shorthand_term.isSuffixOf line && !(dotdot.isPrefixOf (pyStrip line))
    if hl_marker.isPrefixOf line then
      code_blocks_loop (rsplit1_snd line) lines
    else
      let lang := if is_new_file then default_language else code_block_language
      if is_code_block_shorthand then
        replace_shorthand line :: code_block_directive lang ::
          code_blocks_loop lang lines
      else
        line :: code_blocks_loop lang lines

/-- `rule__code_blocks(lines)` (line 105): the loop started with
`code_block_language = 'python'` (line 108). -/
def rule__code_blocks (lines : List Line) : List Line :=
  code_blocks_loop default_language lines

/-- `rule__other_rules(lines)` (lines 133-142): drop every line starting
with `':orphan:'`, pass every other line through. -/
def rule__other_rules : List Line → List Line
  | [] => []
  | line :: lines =>
    if orphan_marker.isPrefixOf line then rule__other_rules lines
    else line :: rule__other_rules lines

/-- `pipeline(steps, initial)` (lines 147-158): `reduce(apply, steps,
initial)` where `apply(result, step)` yields from `step(result)`, and
Python's `reduce` is a left fold. -/
def pipeline {α : Type} (steps : List (α → α)) (initial : α) : α :=
  steps.foldl (fun result step => step result) initial

/-- `sanitize(lines)` (lines 79-81). -/
def sanitize (lines : List Line) : List Line :=
  pipeline [rule__code_blocks, rule__other_rules] lines

/-- Modelled from the spec: "produce the lazy sequence obtained by
feeding the initial input through `s1`, that output through `s2`, …
through `sn`". -/
def feed_stages {α : Type} : List (α → α) → α → α
  | [], x => x
  | step :: steps, x => feed_stages steps (step x)

/-- Modelled from the spec: "a right-to-left functional composition
applied left-to-right in stage order", that is `sn ∘ … ∘ s1`. -/
def compose_stages {α : Type} : List (α → α) → α → α
  | [] => id
  | step :: steps => compose_stages steps ∘ step

/-! Bridging lemmas between the Bool string tests of the embedding and
their existential characterizations. -/

theorem pref_iff (l₁ l₂ : Line) : l₁.isPrefixOf l₂ = true ↔ ∃ t, l₁ ++ t = l₂ :=
  List.isPrefixOf_iff_prefix

theorem suff_iff (l₁ l₂ : Line) : l₁.isSuffixOf l₂ = true ↔ ∃ t, t ++ l₁ = l₂ :=
  List.isSuffixOf_iff_suffix

theorem pref_of_append (l₁ l₂ : Line) : l₁.isPrefixOf (l₁ ++ l₂) = true :=
  (pref_iff _ _).mpr ⟨l₂, rfl⟩

theorem suff_of_append (l₁ l₂ : Line) : l₂.isSuffixOf (l₁ ++ l₂) = true :=
  (suff_iff _ _).mpr ⟨l₁, rfl⟩

/-! Classification of header chunks by the three line tests of
`rule__code_blocks`. -/

theorem header_marker_eq : header_marker = ".. Source defined in".toList := by decide

/-- Every header chunk starts with `FILE_HEADER[:-5]`. -/
theorem fmtHeader_is_new_file (p : Line) :
    header_marker.isPrefixOf (fmtHeader p) = true := by
  rw [header_marker_eq]
  exact (pref_iff _ _).mpr ⟨' ' :: (p ++ "\n\n".toList), rfl⟩

/-- No header chunk starts with the override prefix: the two markers
differ at index 3 (`'h'` against `'S'`). -/
theorem fmtHeader_not_highlight (p : Line) :
    hl_marker.isPrefixOf (fmtHeader p) = false := by
  rw [Bool.eq_false_iff]
  intro h
  obtain ⟨t, ht⟩ := (pref_iff _ _).mp h
  have h3 : (hl_marker ++ t)[3]? = (fmtHeader p)[3]? := by rw [ht]
  rw [show (hl_marker ++ t)[3]? = some 'h' from rfl,
    show (fmtHeader p)[3]? = some 'S' from rfl] at h3
  exact absurd h3 (by decide)

/-- No header chunk ends with the shorthand terminator: it ends with two
newlines while the terminator has a colon in second-to-last place. -/
theorem fmtHeader_not_shorthand (p : Line) :
    shorthand_term.isSuffixOf (fmtHeader p) = false := by
  rw [Bool.eq_false_iff]
  intro h
  obtain ⟨t, ht⟩ := (suff_iff _ _).mp h
  have h1 : (t ++ shorthand_term).reverse[1]? = (fmtHeader p).reverse[1]? := by rw [ht]
  rw [List.reverse_append] at h1
  unfold fmtHeader at h1
  rw [List.reverse_append, List.reverse_append] at h1
  rw [show "\n\n".toList.reverse = ['\n', '\n'] from by decide] at h1
  rw [show (shorthand_term.reverse ++ t.reverse)[1]? = some ':' from rfl,
    show ((['\n', '\n'] : Line) ++
      (p.reverse ++ (".. Source defined in ".toList).reverse))[1]? = some '\n' from by
        simp] at h1
  exact absurd h1 (by decide)

/-! Behaviour of `replace_shorthand` (Python `line.replace('::\n', '\n')`)
on a line made of terminator-free text followed by the terminator. -/

/-- `replace_shorthand` passes the head character through whenever the
character two places ahead is not a newline (the pattern `'::\n'` needs a
newline there). -/
theorem replace_shorthand_cons (c : Char) (l : Line) (h : l[1]? ≠ some '\n') :
    replace_shorthand (c :: l) = c :: replace_shorthand l := by
  rw [replace_shorthand.eq_def]
  split
  · rename_i rest heq
    rw [List.cons_eq_cons] at heq
    obtain ⟨hc, hl⟩ := heq
    subst hl
    simp at h
  · rename_i c' rest' hne heq
    rw [List.cons_eq_cons] at heq
    obtain ⟨hc, hl⟩ := heq
    subst hc
    subst hl
    rfl
  · rename_i heq
    exact absurd heq (by simp)

theorem newline_not_at_one (m : Line) (h : '\n' ∉ m) :
    (m ++ shorthand_term)[1]? ≠ some '\n' := by
  cases m with
  | nil => decide
  | cons d m' =>
    cases m' with
    | nil =>
      simp only [List.cons_append, List.nil_append, List.getElem?_cons_succ,
        List.getElem?_cons_zero]
      decide
    | cons e m'' =>
      simp only [List.cons_append, List.getElem?_cons_succ, List.getElem?_cons_zero,
        ne_eq, Option.some.injEq]
      intro he
      exact h (by rw [← he]; exact List.mem_cons_of_mem _ (List.mem_cons_self _ _))

/-- On a line `foo ++ '::\n'` whose text `foo` holds no newline, Python's
`line.replace('::\n', '\n')` removes exactly the trailing terminator. -/
theorem replace_shorthand_append (foo : Line) (h : '\n' ∉ foo) :
    replace_shorthand (foo ++ shorthand_term) = foo ++ ['\n'] := by
  induction foo with
  | nil => rfl
  | cons c m ih =>
    rw [List.cons_append,
      replace_shorthand_cons c _ (newline_not_at_one m (fun hm => h (List.mem_cons_of_mem _ hm))),
      ih (fun hm => h (List.mem_cons_of_mem _ hm))]
    rfl

/-! Behaviour of `pyTokens` (Python `line.split()`), leading to the value
of `line.rsplit(maxsplit=1)[1]` on override lines. -/

theorem tokensAux_not_ws (acc : List Char) (c : Char) (l : List Char)
    (h : c.isWhitespace = false) : tokensAux acc (c :: l) = tokensAux (c :: acc) l := by
  simp [tokensAux, h]

theorem tokensAux_ws_nil (c : Char) (l : List Char) (h : c.isWhitespace = true) :
    tokensAux [] (c :: l) = tokensAux [] l := by
  simp [tokensAux, h]

theorem tokensAux_ws_cons (acc : List Char) (c : Char) (l : List Char)
    (h : c.isWhitespace = true) (ha : acc ≠ []) :
    tokensAux acc (c :: l) = acc.reverse :: tokensAux [] l := by
  simp [tokensAux, h, ha]

/-- Scanning a run of non-whitespace characters accumulates them. -/
theorem tokensAux_run (w : List Char) (acc l : List Char)
    (hw : ∀ c ∈ w, c.isWhitespace = false) :
    tokensAux acc (w ++ l) = tokensAux (w.reverse ++ acc) l := by
  induction w generalizing acc with
  | nil => simp
  | cons c w' ih =>
    rw [List.cons_append, tokensAux_not_ws _ _ _ (hw c (List.mem_cons_self _ _)),
      ih _ (fun d hd => hw d (List.mem_cons_of_mem _ hd))]
    simp

/-- Scanning whitespace only, with nothing accumulated, yields no token. -/
theorem tokensAux_all_ws (l : List Char) (hw : ∀ c ∈ l, c.isWhitespace = true) :
    tokensAux [] l = [] := by
  induction l with
  | nil => rfl
  | cons c l' ih =>
    rw [tokensAux_ws_nil _ _ (hw c (List.mem_cons_self _ _))]
    exact ih (fun d hd => hw d (List.mem_cons_of_mem _ hd))

/-- A final non-whitespace, nonempty run closed by a newline produces one
last token. -/
theorem tokensAux_last_run (X acc : List Char) (hne : X ≠ [])
    (hX : ∀ c ∈ X, c.isWhitespace = false) :
    tokensAux acc (X ++ ['\n']) = [acc.reverse ++ X] := by
  rw [tokensAux_run X acc ['\n'] hX,
    tokensAux_ws_cons _ '\n' [] (by decide) (by simp [hne])]
  simp [tokensAux]

/-- Tokens of an override line `'.. highlight:: ' ++ X ++ '\n'` with a
nonempty, whitespace-free language token `X`. -/
theorem pyTokens_highlight (X : Line) (hne : X ≠ [])
    (hX : ∀ c ∈ X, c.isWhitespace = false) :
    pyTokens (hl_marker ++ (X ++ ['\n'])) =
      ["..".toList, "highlight::".toList, X] := by
  unfold pyTokens
  rw [show hl_marker = "..".toList ++ (' ' :: ("highlight::".toList ++ [' '])) by decide]
  rw [List.append_assoc]
  rw [tokensAux_run "..".toList [] _ (by decide)]
  rw [List.cons_append, tokensAux_ws_cons _ ' ' _ (by decide) (by decide)]
  rw [List.append_assoc, tokensAux_run "highlight::".toList [] _ (by decide)]
  rw [List.cons_append, tokensAux_ws_cons _ ' ' _ (by decide) (by decide)]
  simp only [List.nil_append]
  rw [tokensAux_last_run X [] hne hX]
  simp

/-- `line.rsplit(maxsplit=1)` on such an override line binds `X` as the
new language. -/
theorem rsplit1_snd_highlight (X : Line) (hne : X ≠ [])
    (hX : ∀ c ∈ X, c.isWhitespace = false) :
    rsplit1_snd (hl_marker ++ (X ++ ['\n'])) = X := by
  unfold rsplit1_snd
  rw [pyTokens_highlight X hne hX]
  rfl

/-- Tokens of an override line with nothing but whitespace after the
marker: the directive word `'highlight::'` itself is the last token. -/
theorem pyTokens_highlight_ws (W : Line) (hW : ∀ c ∈ W, c.isWhitespace = true) :
    pyTokens (hl_marker ++ W) = ["..".toList, "highlight::".toList] := by
  unfold pyTokens
  rw [show hl_marker = "..".toList ++ (' ' :: ("highlight::".toList ++ [' '])) by decide]
  rw [List.append_assoc]
  rw [tokensAux_run "..".toList [] _ (by decide)]
  rw [List.cons_append, tokensAux_ws_cons _ ' ' _ (by decide) (by decide)]
  rw [List.append_assoc, tokensAux_run "highlight::".toList [] _ (by decide)]
  rw [List.cons_append, tokensAux_ws_cons _ ' ' _ (by decide) (by decide)]
  simp only [List.nil_append]
  rw [tokensAux_all_ws W hW]
  simp

theorem rsplit1_snd_highlight_ws (W : Line) (hW : ∀ c ∈ W, c.isWhitespace = true) :
    rsplit1_snd (hl_marker ++ W) = "highlight::".toList := by
  unfold rsplit1_snd
  rw [pyTokens_highlight_ws W hW]
  rfl

/-! Correctness of the `splitlines(True)` model: concatenating the lines
gives back the text, and every line but the last ends in a terminator. -/

theorem splitlinesAux_flatten (acc : List Char) (l : List Char) :
    (splitlinesAux acc l).flatten = acc.reverse ++ l := by
  induction acc, l using splitlinesAux.induct with
  | case1 acc h => simp_all [splitlinesAux, List.isEmpty_iff]
  | case2 acc h => simp_all [splitlinesAux, List.isEmpty_iff]
  | case3 acc rest ih => simp_all [splitlinesAux]
  | case4 acc rest hne ih =>
    rw [splitlinesAux.eq_def]
    split
    · rename_i heq
      exact absurd heq (by simp)
    · rename_i rest1 heq
      injection heq with _ h2
      exact absurd h2 (hne rest1)
    · rename_i rest2 hcond heq
      injection heq with _ h2
      subst h2
      simp [ih]
    · rename_i rest2 heq
      exact absurd heq (by simp)
    · rename_i c2 rest2 hc1 hc2 hc3 heq
      injection heq with h1 _
      exact absurd h1.symm (by simpa using hc2)
  | case5 acc rest ih => simp_all [splitlinesAux]
  | case6 acc c rest h1 h2 h3 ih => simp_all [splitlinesAux]

/-- Python `splitlines(True)` loses no text: the produced lines flatten
back to the input. -/
theorem splitlinesTrue_flatten (text : List Char) :
    (splitlinesTrue text).flatten = text :=
  splitlinesAux_flatten [] text

theorem terminator_of_mem_dropLast_cons (x : Line) (first : Line) (rest : List Line)
    (hfirst : first.getLast? = some '\n' ∨ first.getLast? = some '\r')
    (hrest : ∀ y ∈ rest.dropLast, y.getLast? = some '\n' ∨ y.getLast? = some '\r')
    (hx : x ∈ (first :: rest).dropLast) :
    x.getLast? = some '\n' ∨ x.getLast? = some '\r' := by
  cases rest with
  | nil => simp at hx
  | cons y ys =>
    rw [List.dropLast_cons_of_ne_nil (by simp)] at hx
    rcases List.mem_cons.mp hx with h | h
    · rw [h]
      exact hfirst
    · exact hrest x h

/-- Every line produced by the `splitlines(True)` model, except possibly
the last one, ends with a line terminator. -/
theorem splitlinesAux_terminators (acc : List Char) (l : List Char) :
    ∀ x ∈ (splitlinesAux acc l).dropLast,
      x.getLast? = some '\n' ∨ x.getLast? = some '\r' := by
  induction acc, l using splitlinesAux.induct with
  | case1 acc h => simp_all [splitlinesAux, List.isEmpty_iff]
  | case2 acc h =>
    intro x hx
    rw [splitlinesAux.eq_def] at hx
    simp [h] at hx
  | case3 acc rest ih =>
    intro x hx
    rw [show splitlinesAux acc ('\r' :: '\n' :: rest) =
      (acc.reverse ++ ['\r', '\n']) :: splitlinesAux [] rest from by
        simp [splitlinesAux]] at hx
    refine terminator_of_mem_dropLast_cons x _ _ ?_ ih hx
    left
    rw [show acc.reverse ++ ['\r', '\n'] = (acc.reverse ++ ['\r']) ++ ['\n'] by simp]
    exact List.getLast?_concat _
  | case4 acc rest hne ih =>
    intro x hx
    rw [show splitlinesAux acc ('\r' :: rest) =
      (acc.reverse ++ ['\r']) :: splitlinesAux [] rest from ?_] at hx
    · refine terminator_of_mem_dropLast_cons x _ _ ?_ ih hx
      right
      exact List.getLast?_concat _
    · rw [splitlinesAux.eq_def]
      split
      · rename_i heq
        exact absurd heq (by simp)
      · rename_i rest1 heq
        injection heq with _ h2
        exact absurd h2 (hne rest1)
      · rename_i rest2 hcond heq
        injection heq with _ h2
        subst h2
        rfl
      · rename_i rest2 heq
        exact absurd heq (by simp)
      · rename_i c2 rest2 hc1 hc2 hc3 heq
        injection heq with h1 _
        exact absurd h1.symm (by simpa using hc2)
  | case5 acc rest ih =>
    intro x hx
    rw [show splitlinesAux acc ('\n' :: rest) =
      (acc.reverse ++ ['\n']) :: splitlinesAux [] rest from by
        simp [splitlinesAux]] at hx
    refine terminator_of_mem_dropLast_cons x _ _ ?_ ih hx
    left
    exact List.getLast?_concat _
  | case6 acc c rest h1 h2 h3 ih =>
    intro x hx
    rw [show splitlinesAux acc (c :: rest) = splitlinesAux (c :: acc) rest from by
      rw [splitlinesAux.eq_def]
      split
      · rename_i heq
        exact absurd heq (by simp)
      · rename_i rest1 heq
        rw [List.cons_eq_cons] at heq
        exact absurd heq.1 (by simpa using h2)
      · rename_i rest2 hcond heq
        rw [List.cons_eq_cons] at heq
        exact absurd heq.1 (by simpa using h2)
      · rename_i rest2 heq
        rw [List.cons_eq_cons] at heq
        exact absurd heq.1 (by simpa using h3)
      · rename_i c2 rest2 hc1 hc2 hc3 heq
        rw [List.cons_eq_cons] at heq
        obtain ⟨he1, he2⟩ := heq
        subst he1
        subst he2
        rfl] at hx
    exact ih x hx

theorem splitlinesTrue_terminators (text : List Char) :
    ∀ x ∈ (splitlinesTrue text).dropLast,
      x.getLast? = some '\n' ∨ x.getLast? = some '\r' :=
  splitlinesAux_terminators [] text

/-- Splitting text that starts with a newline-terminated, terminator-free
line peels off exactly that line. -/
theorem splitlinesAux_line (foo : List Char) (rest : List Char)
    (h1 : '\n' ∉ foo) (h2 : '\r' ∉ foo) (acc : List Char) :
    splitlinesAux acc (foo ++ '\n' :: rest) =
      (acc.reverse ++ (foo ++ ['\n'])) :: splitlinesAux [] rest := by
  induction foo generalizing acc with
  | nil => simp [splitlinesAux]
  | cons c m ih =>
    have hc1 : c ≠ '\n' := fun hc => h1 (hc ▸ List.mem_cons_self _ _)
    have hc2 : c ≠ '\r' := fun hc => h2 (hc ▸ List.mem_cons_self _ _)
    rw [List.cons_append]
    rw [show splitlinesAux acc (c :: (m ++ '\n' :: rest)) =
      splitlinesAux (c :: acc) (m ++ '\n' :: rest) from by
        rw [splitlinesAux.eq_def]
        split
        · rename_i heq
          exact absurd heq (by simp)
        · rename_i rest1 heq
          rw [List.cons_eq_cons] at heq
          exact absurd heq.1 hc2
        · rename_i rest2 hcond heq
          rw [List.cons_eq_cons] at heq
          exact absurd heq.1 hc2
        · rename_i rest2 heq
          rw [List.cons_eq_cons] at heq
          exact absurd heq.1 hc1
        · rename_i c2 rest2 hc1' hc2' hc3' heq
          rw [List.cons_eq_cons] at heq
          obtain ⟨he1, he2⟩ := heq
          subst he1
          subst he2
          rfl]
    rw [ih (fun hm => h1 (List.mem_cons_of_mem _ hm))
      (fun hm => h2 (List.mem_cons_of_mem _ hm)) (c :: acc)]
    simp

/-! Step lemmas for `code_blocks_loop`, one per branch of the loop body,
keyed on the boolean line classifications. -/

theorem code_blocks_loop_override (k line : Line) (lines : List Line)
    (h : hl_marker.isPrefixOf line = true) :
    code_blocks_loop k (line :: lines) =
      code_blocks_loop (rsplit1_snd line) lines := by
  simp [code_blocks_loop, h]

theorem code_blocks_loop_header (k line : Line) (lines : List Line)
    (hh : header_marker.isPrefixOf line = true)
    (hhl : hl_marker.isPrefixOf line = false)
    (hsh : shorthand_term.isSuffixOf line = false) :
    code_blocks_loop k (line :: lines) =
      line :: code_blocks_loop default_language lines := by
  simp [code_blocks_loop, hh, hhl, hsh]

theorem code_blocks_loop_shorthand (k line : Line) (lines : List Line)
    (hhl : hl_marker.isPrefixOf line = false)
    (hh : header_marker.isPrefixOf line = false)
    (hsh : shorthand_term.isSuffixOf line = true)
    (hdd : dotdot.isPrefixOf (pyStrip line) = false) :
    code_blocks_loop k (line :: lines) =
      replace_shorthand line :: code_block_directive k ::
        code_blocks_loop k lines := by
  simp [code_blocks_loop, hhl, hh, hsh, hdd]

theorem code_blocks_loop_plain (k line : Line) (lines : List Line)
    (hhl : hl_marker.isPrefixOf line = false)
    (hh : header_marker.isPrefixOf line = false)
    (hns : (shorthand_term.isSuffixOf line &&
      !(dotdot.isPrefixOf (pyStrip line))) = false) :
    code_blocks_loop k (line :: lines) = line :: code_blocks_loop k lines := by
  simp only [code_blocks_loop, hhl, hh, hns]
  simp

/-- Chunks yielded one by one map to successful pulls one by one. -/
theorem pulls_map_yields (contents : List Line) :
    pulls (contents.map Ev.yields) = contents.map Except.ok := by
  induction contents with
  | nil => rfl
  | cons l rest ih => simp [pulls, ih]

/-! The ten claims. -/

/-- C1, counterexample: `concatenate` yields a separator chunk after the
last fragment too, so a single fragment is followed by one `'\n\n'`
separator where the claim requires exactly N−1 = 0 inserted separators
(and the separator chunk is two newlines, not a single empty line). -/
theorem c1_counterexample :
    concatenate [[("a\n").toList]] = [("a\n").toList, separator] ∧
    (concatenate [[("a\n").toList]]).count separator ≠ 0 := by decide

/-- C1, amended: for every list of fragment streams, `concatenate` emits
each fragment's chunks in order with exactly one `'\n\n'` separator chunk
after each fragment — including a trailing one after the last — so N
fragments produce exactly N separator chunks (and zero fragments produce
the empty stream). -/
theorem c1_concatenate_separators (sources : List (List Line))
    (h : ∀ s ∈ sources, separator ∉ s) :
    concatenate sources = (sources.map (fun s => s ++ [separator])).flatten ∧
    (concatenate sources).count separator = sources.length := by
  constructor
  · induction sources with
    | nil => rfl
    | cons s rest ih =>
      have ih' := ih (fun u hu => h u (List.mem_cons_of_mem _ hu))
      simp only [concatenate, List.map_cons, List.flatten_cons, ih']
      simp
  · induction sources with
    | nil => rfl
    | cons s rest ih =>
      have ih' := ih (fun u hu => h u (List.mem_cons_of_mem _ hu))
      simp only [concatenate, List.count_append, List.count_cons_self, ih']
      rw [List.count_eq_zero.mpr (h s (List.mem_cons_self _ _))]
      simp [Nat.add_comm]

/-- C1, witness for the amended claim at two concrete fragments. -/
theorem c1_concatenate_separators_witness :
    concatenate [[("a\n").toList], [("b\n").toList]] =
      (([[("a\n").toList], [("b\n").toList]]).map
        (fun s => s ++ [separator])).flatten ∧
    (concatenate [[("a\n").toList], [("b\n").toList]]).count separator = 2 :=
  c1_concatenate_separators [[("a\n").toList], [("b\n").toList]] (by decide)

/-- C2, counterexample: for the line `'Bar::::\n'` — that is `Foo::\n`
with `Foo = 'Bar::'` — the first chunk emitted by the rewrite still ends
with the shorthand terminator `'::\n'`, against the claim that no
shorthand terminator remains in the first line.  (The rewrite is also
yielded as two chunks, not three stream elements.) -/
theorem c2_counterexample :
    rule__code_blocks [("Bar::::\n").toList] =
      [("Bar::\n").toList, ("\n.. code-block:: python\n").toList] ∧
    shorthand_term.isSuffixOf (("Bar::\n").toList) = true := by decide

/-- C2, amended: under the default language, a line `foo ++ '::\n'` whose
text `foo` holds no terminator character, whose stripped form does not
start with `'..'`, and which is neither an override nor a header line,
rewrites to exactly two chunks `foo ++ '\n'` and
`'\n.. code-block:: python\n'`; their text splits into exactly the three
lines `foo ++ '\n'`, `'\n'`, `'.. code-block:: python\n'`; the original
line is not emitted; and if `foo` does not itself end in `'::'`, no
shorthand terminator remains in the first chunk. -/
theorem c2_shorthand_rewrite (foo : Line) (lines : List Line)
    (hn : '\n' ∉ foo) (hr : '\r' ∉ foo)
    (hdd : dotdot.isPrefixOf (pyStrip (foo ++ shorthand_term)) = false)
    (hhl : hl_marker.isPrefixOf (foo ++ shorthand_term) = false)
    (hh : header_marker.isPrefixOf (foo ++ shorthand_term) = false) :
    code_blocks_loop default_language ((foo ++ shorthand_term) :: lines) =
      (foo ++ ['\n']) :: code_block_directive default_language ::
        code_blocks_loop default_language lines ∧
    splitlinesTrue ((foo ++ ['\n']) ++ code_block_directive default_language) =
      [foo ++ ['\n'], ['\n'], (".. code-block:: python\n").toList] ∧
    (foo ++ shorthand_term) ∉
      [foo ++ ['\n'], code_block_directive default_language] ∧
    (([':', ':'] : Line).isSuffixOf foo = false →
      shorthand_term.isSuffixOf (foo ++ ['\n']) = false) := by
  refine ⟨?_, ?_, ?_, ?_⟩
  · rw [code_blocks_loop_shorthand default_language _ lines hhl hh
      (suff_of_append _ _) hdd]
    rw [replace_shorthand_append foo hn]
  · rw [show (foo ++ ['\n']) ++ code_block_directive default_language =
      foo ++ '\n' :: code_block_directive default_language by simp]
    unfold splitlinesTrue
    rw [splitlinesAux_line foo _ hn hr []]
    rw [show splitlinesAux [] (code_block_directive default_language) =
      [['\n'], (".. code-block:: python\n").toList] from by decide]
    simp
  · have hne1 : foo ++ shorthand_term ≠ foo ++ ['\n'] := by
      intro heq
      have hlen := congrArg List.length heq
      simp [shorthand_term] at hlen
    have hne2 : foo ++ shorthand_term ≠ code_block_directive default_language := by
      intro heq
      have h0 := congrArg (fun l => l[0]?) heq
      simp only at h0
      cases foo with
      | nil => exact absurd h0 (by decide)
      | cons c m =>
        rw [List.cons_append, List.getElem?_cons_zero,
          show (code_block_directive default_language)[0]? = some '\n' from by
            decide] at h0
        injection h0 with hc
        exact hn (hc ▸ List.mem_cons_self _ _)
    simp [hne1, hne2]
  · intro hcc
    rw [Bool.eq_false_iff]
    intro hsuf
    obtain ⟨t, ht⟩ := (suff_iff _ _).mp hsuf
    rw [show shorthand_term = ([':', ':'] : Line) ++ ['\n'] from by decide,
      ← List.append_assoc] at ht
    have hfoo := List.append_cancel_right ht
    exact absurd ((suff_iff _ _).mpr ⟨t, hfoo⟩) (by simp [hcc])

/-- C2, witness for the amended claim on the line `'Foo::\n'`. -/
theorem c2_shorthand_rewrite_witness :
    rule__code_blocks [("Foo::\n").toList] =
      [("Foo\n").toList, ("\n.. code-block:: python\n").toList] := by
  have h := c2_shorthand_rewrite ("Foo").toList []
    (by decide) (by decide) (by decide) (by decide) (by decide)
  unfold rule__code_blocks
  rw [show ("Foo::\n").toList = ("Foo").toList ++ shorthand_term from by decide]
  rw [h.1]
  decide

/-- C3: from any language state, an override line
`'.. highlight:: X\n'` produces no output at all and sets the language,
and an immediately following shorthand line rewrites into a directive
parameterized by `X`, not by the default. -/
theorem c3_override_scoping (k X foo : Line) (lines : List Line)
    (hXne : X ≠ []) (hX : ∀ c ∈ X, c.isWhitespace = false)
    (hn : '\n' ∉ foo)
    (hdd : dotdot.isPrefixOf (pyStrip (foo ++ shorthand_term)) = false)
    (hhl : hl_marker.isPrefixOf (foo ++ shorthand_term) = false)
    (hh : header_marker.isPrefixOf (foo ++ shorthand_term) = false) :
    code_blocks_loop k
        ((hl_marker ++ (X ++ ['\n'])) :: (foo ++ shorthand_term) :: lines) =
      (foo ++ ['\n']) :: code_block_directive X :: code_blocks_loop X lines := by
  rw [code_blocks_loop_override k _ _ (pref_of_append _ _),
    rsplit1_snd_highlight X hXne hX]
  rw [code_blocks_loop_shorthand X _ lines hhl hh (suff_of_append _ _) hdd]
  rw [replace_shorthand_append foo hn]

/-- C3, witness: `['.. highlight:: rust\n', 'Bar::\n']` from the default
state yields exactly the `rust`-parameterized rewrite of `'Bar::\n'`. -/
theorem c3_override_scoping_witness :
    code_blocks_loop default_language
        [(".. highlight:: rust\n").toList, ("Bar::\n").toList] =
      [("Bar\n").toList, ("\n.. code-block:: rust\n").toList] := by
  have h := c3_override_scoping default_language ("rust").toList ("Bar").toList []
    (by decide) (by decide) (by decide) (by decide) (by decide) (by decide)
  rw [show (".. highlight:: rust\n").toList =
      hl_marker ++ (("rust").toList ++ ['\n']) from by decide,
    show ("Bar::\n").toList = ("Bar").toList ++ shorthand_term from by decide,
    h]
  decide

/-- C4: after an override to `X` and an `X`-rewritten shorthand line, a
header chunk resets the language to the default and is emitted unchanged,
so a following shorthand line with no new override rewrites with
`'python'`, not with `X`. -/
theorem c4_reset_on_fragment_boundary (k X foo₁ foo₂ rel : Line)
    (lines : List Line)
    (hXne : X ≠ []) (hX : ∀ c ∈ X, c.isWhitespace = false)
    (hn₁ : '\n' ∉ foo₁)
    (hdd₁ : dotdot.isPrefixOf (pyStrip (foo₁ ++ shorthand_term)) = false)
    (hhl₁ : hl_marker.isPrefixOf (foo₁ ++ shorthand_term) = false)
    (hh₁ : header_marker.isPrefixOf (foo₁ ++ shorthand_term) = false)
    (hn₂ : '\n' ∉ foo₂)
    (hdd₂ : dotdot.isPrefixOf (pyStrip (foo₂ ++ shorthand_term)) = false)
    (hhl₂ : hl_marker.isPrefixOf (foo₂ ++ shorthand_term) = false)
    (hh₂ : header_marker.isPrefixOf (foo₂ ++ shorthand_term) = false) :
    code_blocks_loop k
        ((hl_marker ++ (X ++ ['\n'])) :: (foo₁ ++ shorthand_term) ::
          fmtHeader rel :: (foo₂ ++ shorthand_term) :: lines) =
      (foo₁ ++ ['\n']) :: code_block_directive X ::
        fmtHeader rel :: (foo₂ ++ ['\n']) ::
          code_block_directive default_language ::
            code_blocks_loop default_language lines := by
  rw [code_blocks_loop_override k _ _ (pref_of_append _ _),
    rsplit1_snd_highlight X hXne hX]
  rw [code_blocks_loop_shorthand X _ _ hhl₁ hh₁ (suff_of_append _ _) hdd₁]
  rw [replace_shorthand_append foo₁ hn₁]
  rw [code_blocks_loop_header X _ _ (fmtHeader_is_new_file rel)
    (fmtHeader_not_highlight rel) (fmtHeader_not_shorthand rel)]
  rw [code_blocks_loop_shorthand default_language _ _ hhl₂ hh₂
    (suff_of_append _ _) hdd₂]
  rw [replace_shorthand_append foo₂ hn₂]

/-- C4, witness: override to `rust`, shorthand `'One::\n'`, header for
`docs/source/usage.rst`, shorthand `'Two::\n'`. -/
theorem c4_reset_on_fragment_boundary_witness :
    code_blocks_loop default_language
        [(".. highlight:: rust\n").toList, ("One::\n").toList,
          fmtHeader ("docs/source/usage.rst").toList, ("Two::\n").toList] =
      [("One\n").toList, ("\n.. code-block:: rust\n").toList,
        fmtHeader ("docs/source/usage.rst").toList, ("Two\n").toList,
        ("\n.. code-block:: python\n").toList] := by
  have h := c4_reset_on_fragment_boundary default_language ("rust").toList
    ("One").toList ("Two").toList ("docs/source/usage.rst").toList []
    (by decide) (by decide) (by decide) (by decide) (by decide) (by decide)
    (by decide) (by decide) (by decide) (by decide)
  rw [show (".. highlight:: rust\n").toList =
      hl_marker ++ (("rust").toList ++ ['\n']) from by decide,
    show ("One::\n").toList = ("One").toList ++ shorthand_term from by decide,
    show ("Two::\n").toList = ("Two").toList ++ shorthand_term from by decide,
    h]
  decide

/-- C5, counterexample: with the referenced file absent, the first pull
of `read_file`'s stream succeeds (it yields the header chunk); the
stream does not fail with `NotFoundError` on the first pull. -/
theorem c5_counterexample :
    (pulls (read_file [] (fun p => p) ("docs/source/usage.rst").toList))[0]? =
      some (Except.ok (fmtHeader ("docs/source/usage.rst").toList)) ∧
    (pulls (read_file [] (fun p => p) ("docs/source/usage.rst").toList))[0]? ≠
      some (Except.error Err.NotFoundError) := by decide

/-- C5, amended: when the referenced file is absent, the generator
yields the header, and only then runs `open`, so `NotFoundError`
surfaces on the second pull of the stream — deferred past the first
access, not raised on it. -/
theorem c5_notfound_second_pull (fs : List (Line × List Line))
    (relpath : Line → Line) (name : Line)
    (h : fs.lookup name = none) :
    read_file fs relpath name =
      [Ev.yields (fmtHeader (relpath name)), Ev.openFile name,
        Ev.raises Err.NotFoundError] ∧
    pulls (read_file fs relpath name) =
      [Except.ok (fmtHeader (relpath name)), Except.error Err.NotFoundError] := by
  unfold read_file
  rw [h]
  exact ⟨rfl, rfl⟩

/-- C5, witness for the amended claim on an empty file system. -/
theorem c5_notfound_second_pull_witness :
    pulls (read_file [] (fun p => p) ("docs/source/usage.rst").toList) =
      [Except.ok (fmtHeader ("docs/source/usage.rst").toList),
        Except.error Err.NotFoundError] :=
  (c5_notfound_second_pull [] (fun p => p) ("docs/source/usage.rst").toList
    (by decide)).2

/-- C6, counterexample: on the malformed override line
`'.. highlight:: \n'` (no trailing token), the stage neither skips it
as a no-op nor fails: it consumes the line and silently sets the current
language to the directive word `'highlight::'`, as the rewrite of the
following shorthand line reveals. -/
theorem c6_counterexample :
    code_blocks_loop default_language
        [(".. highlight:: \n").toList, ("x::\n").toList] =
      [("x\n").toList, ("\n.. code-block:: highlight::\n").toList] ∧
    code_blocks_loop default_language
        [(".. highlight:: \n").toList, ("x::\n").toList] ≠
      [("x\n").toList, ("\n.. code-block:: python\n").toList] := by decide

/-- C6, amended: an override line whose text after the marker is only
whitespace is consumed (it produces no output) and sets the current
language to `'highlight::'` — the last whitespace-delimited token of the
line, the directive word itself — rather than leaving the language
unchanged or failing. -/
theorem c6_malformed_override (k W : Line) (lines : List Line)
    (hW : ∀ c ∈ W, c.isWhitespace = true) :
    code_blocks_loop k ((hl_marker ++ W) :: lines) =
      code_blocks_loop ("highlight::").toList lines := by
  rw [code_blocks_loop_override k _ _ (pref_of_append _ _),
    rsplit1_snd_highlight_ws W hW]

/-- C6, witness: the malformed override followed by `'x::\n'`. -/
theorem c6_malformed_override_witness :
    code_blocks_loop default_language
        ((hl_marker ++ ['\n']) :: [("x::\n").toList]) =
      code_blocks_loop ("highlight::").toList [("x::\n").toList] :=
  c6_malformed_override default_language ['\n'] [("x::\n").toList] (by decide)

/-- C7: a fragment read from an existing file contributes the header
built from its relative path first, then the file's chunks in their
original order; a literal text block contributes the header built from
the script's relative path first, then `splitlines(True)` of the text —
lines that concatenate back to the text, every one but the last carrying
its terminator. -/
theorem c7_header_invariant (fs : List (Line × List Line))
    (relpath : Line → Line) (name : Line) (contents : List Line)
    (h : fs.lookup name = some contents) (text : List Char) :
    pulls (read_file fs relpath name) =
      Except.ok (fmtHeader (relpath name)) :: contents.map Except.ok ∧
    read_text text = fmtHeader script_relpath :: splitlinesTrue text ∧
    (splitlinesTrue text).flatten = text ∧
    ∀ x ∈ (splitlinesTrue text).dropLast,
      x.getLast? = some '\n' ∨ x.getLast? = some '\r' := by
  refine ⟨?_, rfl, splitlinesTrue_flatten text, splitlinesTrue_terminators text⟩
  unfold read_file
  rw [h]
  rw [show pulls (Ev.yields (fmtHeader (relpath name)) :: Ev.openFile name ::
      contents.map Ev.yields) =
    Except.ok (fmtHeader (relpath name)) :: pulls (contents.map Ev.yields) from rfl]
  rw [pulls_map_yields]

/-- C7, witness at a one-file file system and the text `'a\nb'`. -/
theorem c7_header_invariant_witness :
    pulls (read_file [(("docs/source/usage.rst").toList, [("use\n").toList])]
        (fun p => p) ("docs/source/usage.rst").toList) =
      Except.ok (fmtHeader ("docs/source/usage.rst").toList) ::
        [("use\n").toList].map Except.ok ∧
    read_text ("a\nb").toList =
      fmtHeader script_relpath :: splitlinesTrue ("a\nb").toList ∧
    (splitlinesTrue ("a\nb").toList).flatten = ("a\nb").toList ∧
    ∀ x ∈ (splitlinesTrue ("a\nb").toList).dropLast,
      x.getLast? = some '\n' ∨ x.getLast? = some '\r' :=
  c7_header_invariant [(("docs/source/usage.rst").toList, [("use\n").toList])]
    (fun p => p) ("docs/source/usage.rst").toList [("use\n").toList]
    (by decide) ("a\nb").toList

/-- C8: the directive-stripping stage is exactly a stateless filter: a
line is dropped precisely when it starts with `':orphan:'`, every other
line passes through unchanged, in order. -/
theorem c8_orphan_filter (lines : List Line) :
    rule__other_rules lines =
      lines.filter (fun line => !(orphan_marker.isPrefixOf line)) := by
  induction lines with
  | nil => rfl
  | cons line rest ih =>
    by_cases h : orphan_marker.isPrefixOf line = true
    · simp [rule__other_rules, h, ih, List.filter_cons]
    · rw [Bool.not_eq_true] at h
      simp [rule__other_rules, h, ih, List.filter_cons]

/-- C9: the pipeline composer is the left-to-right fold of the stages
over the initial input: it equals feeding the input through the stages
in order, and equals the right-to-left functional composition
`sn ∘ … ∘ s1` applied to the input. -/
theorem c9_pipeline_feeds_stages_in_order (α : Type) (steps : List (α → α))
    (initial : α) :
    pipeline steps initial = feed_stages steps initial ∧
    pipeline steps initial = compose_stages steps initial := by
  constructor
  · induction steps generalizing initial with
    | nil => rfl
    | cons s rest ih =>
      rw [show pipeline (s :: rest) initial = pipeline rest (s initial) from rfl,
        show feed_stages (s :: rest) initial = feed_stages rest (s initial) from rfl]
      exact ih (s initial)
  · induction steps generalizing initial with
    | nil => rfl
    | cons s rest ih =>
      rw [show pipeline (s :: rest) initial = pipeline rest (s initial) from rfl,
        show compose_stages (s :: rest) initial =
          compose_stages rest (s initial) from rfl]
      exact ih (s initial)

/-- C10: a line that ends with the shorthand terminator but whose
stripped text starts with the directive-comment prefix `'..'` — for
example an indented directive — and which is neither an override nor a
header line, is emitted unchanged by the code-block stage with the
language state untouched: it is never expanded. -/
theorem c10_indented_directive_unchanged (k line : Line) (lines : List Line)
    (hterm : shorthand_term.isSuffixOf line = true)
    (hdd : dotdot.isPrefixOf (pyStrip line) = true)
    (hhl : hl_marker.isPrefixOf line = false)
    (hh : header_marker.isPrefixOf line = false) :
    code_blocks_loop k (line :: lines) = line :: code_blocks_loop k lines :=
  code_blocks_loop_plain k line lines hhl hh (by rw [hterm, hdd]; rfl)

/-- C10, witness on the indented directive line `'   .. note::\n'`. -/
theorem c10_indented_directive_unchanged_witness :
    rule__code_blocks [("   .. note::\n").toList] =
      [("   .. note::\n").toList] := by
  unfold rule__code_blocks
  rw [c10_indented_directive_unchanged default_language ("   .. note::\n").toList []
    (by decide) (by decide) (by decide) (by decide)]
  rfl
